import Mathlib

/-!
Shallow embedding of the update engine of `src/src/main.rs`
(`actual_perform_update`, `perform_update` and the message protocol).

Modelling conventions:
* A filesystem path is a list of components (`Path`); joins are list
  appends, `Path::parent` is `List.dropLast`, `file_name` is `List.getLast?`.
* The filesystem is a pair of a directory set and a file store mapping a
  path to its byte content (`FS`).  `fs::create_dir_all` adds every
  path-component-wise ancestor of the requested directory;
  `fs::File::create` / `io::copy` / `fs::copy` overwrite the destination.
  Filesystem primitives are modelled as total (no injected I/O faults);
  archive-side failures (`File::open`, `ZipArchive::new`,
  `archive.by_index`) are modelled explicitly because the code turns them
  into run-terminating errors.
* The zip archive is the list of its entries in archive order; an entry
  carries its stored name, its byte content and a `readOk` flag modelling
  whether `archive.by_index` can decode it.
* `ZipFile::enclosed_name` rejects names containing a NUL byte, absolute
  names, and names whose `..` components would climb above the extraction
  root; the kept result is returned here already normalised (`.` dropped,
  balanced `..` resolved), which is the path the OS resolves the join to.
* The progress mpsc channel is modelled as the list of messages sent, in
  send order.  `TempDir` cleanup (deletion of the scratch subtree on drop)
  and the deletion of the source zip after success act outside the paths
  the claims are about and are noted where relevant.
-/

namespace Updater

abbrev Path := List String

abbrev Bytes := List Nat

/-- The `UpdateMsg` enum of `main.rs` (lines 20-26). -/
inductive UpdateMsg where
  | Status (text : String)
  | TotalFiles (n : Nat)
  | Progress (current : Nat) (total : Nat) (name : String)
  | Complete
  | Error (msg : String)
deriving DecidableEq, Repr

def UpdateMsg.isTerminal : UpdateMsg → Bool
  | .Complete => true
  | .Error _ => true
  | _ => false

def UpdateMsg.isProgress : UpdateMsg → Bool
  | .Progress _ _ _ => true
  | _ => false

def UpdateMsg.isTotalFiles : UpdateMsg → Bool
  | .TotalFiles _ => true
  | _ => false

def UpdateMsg.isComplete : UpdateMsg → Bool
  | .Complete => true
  | _ => false

/-- The `io::ErrorKind` values `actual_perform_update` can produce. -/
inductive ErrKind where
  | InvalidInput
  | NotFound
  | ArchiveError
  | IoError
deriving DecidableEq, Repr

structure UErr where
  kind : ErrKind
  msg : String
deriving DecidableEq, Repr

/-- Filesystem model: a set of existing directories and a file store. -/
structure FS where
  dirs : List Path
  files : List (Path × Bytes)
deriving DecidableEq, Repr

def FS.isDir (fs : FS) (p : Path) : Bool := fs.dirs.contains p

def lookupFile : List (Path × Bytes) → Path → Option Bytes
  | [], _ => none
  | (q, d) :: rest, p => if q = p then some d else lookupFile rest p

def FS.getFile (fs : FS) (p : Path) : Option Bytes := lookupFile fs.files p

def FS.isFile (fs : FS) (p : Path) : Bool := (fs.getFile p).isSome

/-- Model of `Path::exists`: true if a directory or a regular file is at the path. -/
def FS.pathExists (fs : FS) (p : Path) : Bool := fs.isDir p || fs.isFile p

/-- All component-wise ancestors of a path, the path itself included. -/
def pathAncestors : Path → List Path
  | [] => [[]]
  | c :: rest => [] :: (pathAncestors rest).map (c :: ·)

/-- Model of `fs::create_dir_all`: create the directory and all missing ancestors. -/
def FS.createDirAll (fs : FS) (p : Path) : FS :=
  { fs with dirs := (pathAncestors p).filter (fun d => !(fs.dirs.contains d)) ++ fs.dirs }

def removeFileKey : List (Path × Bytes) → Path → List (Path × Bytes)
  | [], _ => []
  | (q, d) :: rest, p =>
      if q = p then removeFileKey rest p else (q, d) :: removeFileKey rest p

/-- Model of `fs::File::create` + `io::copy` (or `fs::copy`): write, overwriting. -/
def FS.writeFile (fs : FS) (p : Path) (data : Bytes) : FS :=
  { fs with files := (p, data) :: removeFileKey fs.files p }

/-- The regular files under `root` (as walked by `WalkDir`), in the
deterministic order of the file store.  The real `WalkDir` yields OS
directory order, which is unspecified; the claims proved below do not
depend on the particular order. -/
def FS.filesUnder (fs : FS) (root : Path) : List Path :=
  (fs.files.map (·.1)).filter (fun p => root.isPrefixOf p)

/-- One zip archive entry: stored name, byte content, and whether
`archive.by_index` can read/decode it. -/
structure ZipEntry where
  name : String
  data : Bytes
  readOk : Bool
deriving DecidableEq, Repr

/-- Split a character list on `/` into components. -/
def splitSlash : List Char → List Char → List String
  | [], acc => [String.mk acc.reverse]
  | c :: rest, acc =>
      if c = '/' then String.mk acc.reverse :: splitSlash rest []
      else splitSlash rest (c :: acc)

/-- The `Component::Normal` view of a path string: split on `/`, dropping
empty components and `.` (as `Path::components` does). -/
def pathComponents (s : String) : List String :=
  (splitSlash s.data []).filter (fun c => !(c = "" || c = "."))

/-- Resolve `..` components against a stack; `none` when a `..` would climb
above the root (the `checked_sub` failure in `enclosed_name`). -/
def normComponents : List String → List String → Option (List String)
  | [], acc => some acc.reverse
  | c :: rest, acc =>
      if c = ".." then
        match acc with
        | [] => none
        | _ :: acc' => normComponents rest acc'
      else normComponents rest (c :: acc)

/-- Model of `ZipFile::enclosed_name`: `none` for names with a NUL byte, absolute
names, or names escaping upward through `..`; otherwise the (normalised)
safe relative path. -/
def enclosedName (s : String) : Option Path :=
  if s.data.contains (Char.ofNat 0) then none
  else if s.data.head? = some '/' then none
  else normComponents (pathComponents s) []

/-- Model of the directory-entry test of line 406: the stored name ends in a slash. -/
def nameEndsWithSlash (s : String) : Bool := s.data.getLast? = some '/'

/-- Model of `relative_path.to_str()`: components joined with a slash. -/
def pathToString : Path → String
  | [] => ""
  | [c] => c
  | c :: rest => c ++ "/" ++ pathToString rest

/-- Result of one stage run on the worker: filesystem, messages sent in
order, and the error that aborted the stage (if any). -/
structure StageRes where
  fs : FS
  trace : List UpdateMsg
  err : Option UErr
deriving DecidableEq, Repr

def errEntryUnreadable : UErr := ⟨ErrKind.ArchiveError, "无法读取压缩包条目"⟩

/-- The extraction loop of `actual_perform_update` (main.rs lines
386-413): for index `i`, read the entry (`by_index`, aborting with an
archive error on failure), skip it entirely when `enclosed_name` is
`none`, otherwise send `Progress (i+1, total, name)`, create the missing
parent directories, skip directory entries, and write the file. -/
def extractLoop (scratch : Path) (total : Nat) :
    List ZipEntry → Nat → FS → StageRes
  | [], _, fs => ⟨fs, [], none⟩
  | e :: rest, i, fs =>
      if e.readOk then
        match enclosedName e.name with
        | none => extractLoop scratch total rest (i + 1) fs
        | some rel =>
            let outpath := scratch ++ rel
            let fs1 :=
              if outpath = [] then fs
              else if fs.pathExists outpath.dropLast then fs
              else fs.createDirAll outpath.dropLast
            let fs2 :=
              if nameEndsWithSlash e.name then fs1
              else fs1.writeFile outpath e.data
            let res := extractLoop scratch total rest (i + 1) fs2
            ⟨res.fs, UpdateMsg.Progress (i + 1) total e.name :: res.trace, res.err⟩
      else ⟨fs, [], some errEntryUnreadable⟩

/-- The inner-path resolution of main.rs lines 415-420: empty hint means
the scratch root itself; otherwise `temp_path.join(zip_inner_path)`. -/
def resolvePayload (scratch : Path) (hint : String) : Path :=
  if hint = "" then scratch else scratch ++ pathComponents hint

/-- The self-replace disposition of main.rs lines 459-472: a destination
whose file name equals the running executable's name is diverted to the
`.new`-suffixed sibling. -/
def selfReplaceDest (exeName : String) (dest : Path) : Path :=
  match dest.getLast? with
  | some last => if last = exeName then dest.dropLast ++ [last ++ ".new"] else dest
  | none => dest

/-- One iteration of the copy loop of main.rs lines 443-480 for a regular
file `p` under `root`: compute the relative path, ensure the destination
parent exists, divert a self-match to its `.new` sibling, send
`Progress (cur+1, total, relative)`, and copy the bytes. -/
def mergeStep (exeName : String) (targetDir root : Path) (total cur : Nat)
    (fs : FS) (p : Path) : FS × UpdateMsg :=
  let rel := p.drop root.length
  let dest := targetDir ++ rel
  let fs1 := if dest = [] then fs else fs.createDirAll dest.dropLast
  let finalDest := selfReplaceDest exeName dest
  let msg := UpdateMsg.Progress (cur + 1) total (pathToString rel)
  match fs1.getFile p with
  | some d => (fs1.writeFile finalDest d, msg)
  | none => (fs1, msg)

/-- The copy loop of main.rs lines 443-480 over the walked regular files. -/
def mergeLoop (exeName : String) (targetDir root : Path) (total : Nat) :
    List Path → Nat → FS → FS × List UpdateMsg
  | [], _, fs => (fs, [])
  | p :: files, cur, fs =>
      let step := mergeStep exeName targetDir root total cur fs p
      let rest := mergeLoop exeName targetDir root total files (cur + 1) step.1
      (rest.1, step.2 :: rest.2)

/-- Outcome of `File::open(package_path)` + `ZipArchive::new(file)`
(main.rs lines 376-377). -/
inductive OpenResult where
  | ok (entries : List ZipEntry)
  | ioFail (msg : String)
  | zipFail (msg : String)
deriving DecidableEq, Repr

/-- The inputs of one worker run, with the ambient state the code reads:
the running executable's file name (`env::current_exe().file_name()`), the
fresh scratch directory `tempdir()` will create, the archive-open outcome
and the initial filesystem. -/
structure Input where
  packagePath : String
  targetPath : Option Path
  zipInnerPath : String
  exeName : String
  archive : OpenResult
  scratch : Path
  fs0 : FS
deriving DecidableEq, Repr

/-- Result of `actual_perform_update`: the messages sent in order, the
returned error (none on `Ok`), and the resulting filesystem (before the
`TempDir` guard deletes the scratch subtree). -/
structure RunRes where
  trace : List UpdateMsg
  err : Option UErr
  fs : FS
deriving DecidableEq, Repr

def errNoPackage : UErr := ⟨ErrKind.InvalidInput, "未提供更新包路径"⟩

def errNoTarget : UErr := ⟨ErrKind.InvalidInput, "必须提供目标路径"⟩

def statusExtracting : String := "正在解压更新包..."

def statusCopying : String := "正在复制文件..."

/-- Model of `actual_perform_update` (main.rs lines 346-486). -/
def actualPerformUpdate (inp : Input) : RunRes :=
  if inp.packagePath = "" then ⟨[], some errNoPackage, inp.fs0⟩
  else
    match inp.targetPath with
    | none => ⟨[], some errNoTarget, inp.fs0⟩
    | some targetDir =>
        let fs := inp.fs0.createDirAll inp.scratch
        match inp.archive with
        | OpenResult.ioFail m => ⟨[], some ⟨ErrKind.IoError, m⟩, fs⟩
        | OpenResult.zipFail m => ⟨[], some ⟨ErrKind.ArchiveError, m⟩, fs⟩
        | OpenResult.ok entries =>
            let res := extractLoop inp.scratch entries.length entries 0 fs
            let tr0 := UpdateMsg.Status statusExtracting ::
              UpdateMsg.TotalFiles entries.length :: res.trace
            match res.err with
            | some e => ⟨tr0, some e, res.fs⟩
            | none =>
                let root := resolvePayload inp.scratch inp.zipInnerPath
                if res.fs.pathExists root then
                  let files := res.fs.filesUnder root
                  let mr := mergeLoop inp.exeName targetDir root files.length files 0 res.fs
                  ⟨tr0 ++ UpdateMsg.Status statusCopying ::
                    UpdateMsg.TotalFiles files.length :: mr.2 ++ [UpdateMsg.Complete],
                   none, mr.1⟩
                else
                  ⟨tr0, some ⟨ErrKind.NotFound,
                    String.append "更新包中未找到指定目录: " inp.zipInnerPath⟩, res.fs⟩

/-- Model of `perform_update` (main.rs lines 323-343): on `Ok` delete the source
zip (outside the modelled filesystem paths) and stop; on `Err` send a
single `Error` message carrying the error text. -/
def performUpdate (inp : Input) : List UpdateMsg × FS :=
  let r := actualPerformUpdate inp
  match r.err with
  | none => (r.trace, r.fs)
  | some e => (r.trace ++ [UpdateMsg.Error e.msg], r.fs)

/-! ### Concrete run fixtures used by counterexamples and witnesses -/

def fsEmpty : FS := ⟨[], []⟩

/-- A run over an archive with no entries: reaches the merge stage with an
empty payload. -/
def inpEmptyArchive : Input :=
  { packagePath := "pkg.zip", targetPath := some ["t"], zipInnerPath := "",
    exeName := "app.exe", archive := OpenResult.ok [], scratch := ["tmp"],
    fs0 := fsEmpty }

/-- A run whose archive packages a top-level `Product` folder, with an
empty inner-path hint. -/
def inpFolder : Input :=
  { packagePath := "pkg.zip", targetPath := some ["t"], zipInnerPath := "",
    exeName := "app.exe",
    archive := OpenResult.ok [⟨"Product/", [], true⟩, ⟨"Product/f", [7], true⟩],
    scratch := ["tmp"], fs0 := fsEmpty }

/-- A run whose archive holds a single top-level file, against a target
directory that does not yet exist. -/
def inpTopFile : Input :=
  { packagePath := "pkg.zip", targetPath := some ["t"], zipInnerPath := "",
    exeName := "app.exe", archive := OpenResult.ok [⟨"f", [3], true⟩],
    scratch := ["tmp"], fs0 := fsEmpty }

/-- A run with no target directory supplied. -/
def inpNoTarget : Input :=
  { packagePath := "pkg.zip", targetPath := none, zipInnerPath := "",
    exeName := "app.exe", archive := OpenResult.ok [], scratch := ["tmp"],
    fs0 := fsEmpty }

/-- An archive entry whose stored name escapes upward, so that
`enclosed_name` rejects it. -/
def badEntry : ZipEntry := ⟨"../x", [1], true⟩

/-- Two readable, safely named entries (one of them a directory entry). -/
def safeEntries : List ZipEntry := [⟨"a", [1], true⟩, ⟨"d/", [], true⟩]

/-- A payload holding both `app.exe` and `app.exe.new` as regular files,
with distinct contents. -/
def clashFS : FS := ⟨[], [(["s", "app.exe.new"], [1]), (["s", "app.exe"], [2])]⟩

/-- A payload holding the running executable's name and a plain file. -/
def mergeFS : FS := ⟨[], [(["s", "app.exe"], [9]), (["s", "lib.dll"], [5])]⟩

/-- A run asking for the inner path "sub", which the (empty) archive does
not provide. -/
def inpMissingInner : Input :=
  { packagePath := "pkg.zip", targetPath := some ["t"], zipInnerPath := "sub",
    exeName := "app.exe", archive := OpenResult.ok [], scratch := ["tmp"],
    fs0 := fsEmpty }

/-- A run starting from a filesystem that already holds a directory. -/
def inpKeepDir : Input :=
  { packagePath := "pkg.zip", targetPath := some ["t"], zipInnerPath := "",
    exeName := "app.exe", archive := OpenResult.ok [⟨"f", [3], true⟩],
    scratch := ["tmp"], fs0 := ⟨[["keep"]], []⟩ }

example : enclosedName "../x" = none := by decide
example : enclosedName "Product/f" = some ["Product", "f"] := by decide
example : enclosedName "Product/" = some ["Product"] := by decide
example : enclosedName "/abs" = none := by decide
example : enclosedName "a/../b" = some ["b"] := by decide

/-! ### Helper lemmas about the filesystem model -/

lemma FS.getFile_createDirAll (fs : FS) (p q : Path) :
    (fs.createDirAll p).getFile q = fs.getFile q := rfl

lemma FS.dirs_writeFile (fs : FS) (p : Path) (d : Bytes) :
    (fs.writeFile p d).dirs = fs.dirs := rfl

lemma lookupFile_removeFileKey_ne (l : List (Path × Bytes)) (p q : Path) (h : q ≠ p) :
    lookupFile (removeFileKey l p) q = lookupFile l q := by
  induction l with
  | nil => rfl
  | cons e rest ih =>
      obtain ⟨k, d⟩ := e
      by_cases hk : k = p
      · rw [removeFileKey, if_pos hk, ih, lookupFile,
          if_neg (fun hc => h (hk ▸ hc.symm : q = p))]
      · by_cases hq : k = q <;>
          simp [removeFileKey, hk, lookupFile, hq, ih, fun hc : q = p => h hc]

lemma FS.getFile_writeFile_self (fs : FS) (p : Path) (d : Bytes) :
    (fs.writeFile p d).getFile p = some d := by
  simp [FS.writeFile, FS.getFile, lookupFile]

lemma FS.getFile_writeFile_ne (fs : FS) (p : Path) (d : Bytes) (q : Path) (h : q ≠ p) :
    (fs.writeFile p d).getFile q = fs.getFile q := by
  simp only [FS.writeFile, FS.getFile, lookupFile]
  rw [if_neg (fun hc => h hc.symm), lookupFile_removeFileKey_ne _ _ _ h]

lemma FS.isDir_writeFile (fs : FS) (p : Path) (d : Bytes) (q : Path) :
    (fs.writeFile p d).isDir q = fs.isDir q := rfl

lemma FS.isDir_createDirAll_mono (fs : FS) (p q : Path) (h : fs.isDir q = true) :
    (fs.createDirAll p).isDir q = true := by
  simp only [FS.isDir, FS.createDirAll, List.contains_eq_any_beq, List.any_append] at h ⊢
  simp [h]

lemma isPrefixOf_append (l t : Path) : l.isPrefixOf (l ++ t) = true := by
  simp [List.isPrefixOf_iff_prefix]

lemma isPrefixOf_drop_append (r q : Path) (h : r.isPrefixOf q = true) :
    r ++ q.drop r.length = q := by
  rw [List.isPrefixOf_iff_prefix] at h
  obtain ⟨s, rfl⟩ := h
  rw [List.drop_left]

/-! ### Helper lemmas about the extraction loop -/

lemma extractLoop_trace_progress (scratch : Path) (total : Nat) :
    ∀ (entries : List ZipEntry) (i : Nat) (fs : FS),
      ∀ m ∈ (extractLoop scratch total entries i fs).trace, m.isProgress = true := by
  intro entries
  induction entries with
  | nil => intro i fs m hm; simp [extractLoop] at hm
  | cons e rest ih =>
      intro i fs m hm
      by_cases hr : e.readOk = true
      · simp only [extractLoop, hr, if_true] at hm
        cases henc : enclosedName e.name with
        | none =>
            rw [henc] at hm
            exact ih _ _ m hm
        | some rel =>
            rw [henc] at hm
            simp only [List.mem_cons] at hm
            cases hm with
            | inl h => subst h; rfl
            | inr h => exact ih _ _ m h
      · simp only [extractLoop, hr, if_false] at hm
        simp at hm

lemma extractLoop_err_eq (scratch : Path) (total : Nat) :
    ∀ (entries : List ZipEntry) (i : Nat) (fs : FS),
      (extractLoop scratch total entries i fs).err = none ∨
      (extractLoop scratch total entries i fs).err = some errEntryUnreadable := by
  intro entries
  induction entries with
  | nil => intro i fs; left; rfl
  | cons e rest ih =>
      intro i fs
      by_cases hr : e.readOk = true
      · simp only [extractLoop, hr, if_true]
        cases henc : enclosedName e.name with
        | none => exact ih _ _
        | some rel => exact ih _ _
      · simp only [extractLoop, hr, if_false]
        right; rfl

lemma extractLoop_getFile (scratch : Path) (total : Nat) :
    ∀ (entries : List ZipEntry) (i : Nat) (fs : FS) (p : Path),
      (extractLoop scratch total entries i fs).fs.getFile p ≠ fs.getFile p →
      scratch.isPrefixOf p = true := by
  intro entries
  induction entries with
  | nil => intro i fs p h; simp [extractLoop] at h
  | cons e rest ih =>
      intro i fs p h
      by_cases hr : e.readOk = true
      · simp only [extractLoop, hr, if_true] at h
        cases henc : enclosedName e.name with
        | none =>
            rw [henc] at h
            exact ih _ _ _ h
        | some rel =>
            rw [henc] at h
            simp only at h
            set fs1 := if scratch ++ rel = [] then fs
              else if fs.pathExists (scratch ++ rel).dropLast then fs
              else fs.createDirAll (scratch ++ rel).dropLast with hfs1
            have hfs1p : fs1.getFile p = fs.getFile p := by
              rw [hfs1]
              split
              · rfl
              · split
                · rfl
                · rw [FS.getFile_createDirAll]
            by_cases hdir : nameEndsWithSlash e.name = true
            · rw [if_pos hdir] at h
              by_cases hrec :
                  (extractLoop scratch total rest (i + 1) fs1).fs.getFile p = fs1.getFile p
              · rw [hrec, hfs1p] at h; exact absurd rfl h
              · exact ih _ _ _ hrec
            · rw [if_neg hdir] at h
              by_cases hkey : p = scratch ++ rel
              · subst hkey; exact isPrefixOf_append scratch rel
              · by_cases hrec :
                    (extractLoop scratch total rest (i + 1)
                      (fs1.writeFile (scratch ++ rel) e.data)).fs.getFile p =
                    (fs1.writeFile (scratch ++ rel) e.data).getFile p
                · rw [hrec, FS.getFile_writeFile_ne _ _ _ _ hkey, hfs1p] at h
                  exact absurd rfl h
                · exact ih _ _ _ hrec
      · simp only [extractLoop, hr, if_false] at h
        exact absurd rfl h

lemma extractLoop_isDir_mono (scratch : Path) (total : Nat) :
    ∀ (entries : List ZipEntry) (i : Nat) (fs : FS) (q : Path),
      fs.isDir q = true → (extractLoop scratch total entries i fs).fs.isDir q = true := by
  intro entries
  induction entries with
  | nil => intro i fs q h; simpa [extractLoop] using h
  | cons e rest ih =>
      intro i fs q h
      by_cases hr : e.readOk = true
      · simp only [extractLoop, hr, if_true]
        cases henc : enclosedName e.name with
        | none => exact ih _ _ _ h
        | some rel =>
            simp only
            apply ih
            have h1 : (if scratch ++ rel = [] then fs
                else if fs.pathExists (scratch ++ rel).dropLast then fs
                else fs.createDirAll (scratch ++ rel).dropLast).isDir q = true := by
              split
              · exact h
              · split
                · exact h
                · exact FS.isDir_createDirAll_mono _ _ _ h
            split
            · exact h1
            · rw [FS.isDir_writeFile]; exact h1
      · simpa [extractLoop, hr] using h

lemma extractLoop_all_safe (scratch : Path) (total : Nat) :
    ∀ (entries : List ZipEntry) (i : Nat) (fs : FS),
      (∀ e ∈ entries, e.readOk = true ∧ (enclosedName e.name).isSome = true) →
      (extractLoop scratch total entries i fs).err = none ∧
      (extractLoop scratch total entries i fs).trace.length = entries.length ∧
      ∀ j (hj : j < entries.length),
        (extractLoop scratch total entries i fs).trace.get? j =
          some (UpdateMsg.Progress (i + j + 1) total (entries.get ⟨j, hj⟩).name) := by
  intro entries
  induction entries with
  | nil =>
      intro i fs _
      refine ⟨rfl, rfl, ?_⟩
      intro j hj
      exact absurd hj (by simp)
  | cons e rest ih =>
      intro i fs hsafe
      obtain ⟨hr, hs⟩ := hsafe e (List.mem_cons_self e rest)
      obtain ⟨rel, henc⟩ := Option.isSome_iff_exists.mp hs
      have hrest := fun e' he' => hsafe e' (List.mem_cons_of_mem e he')
      simp only [extractLoop, hr, if_true, henc]
      obtain ⟨ih1, ih2, ih3⟩ := ih (i + 1)
        (if nameEndsWithSlash e.name then
          (if scratch ++ rel = [] then fs
            else if fs.pathExists (scratch ++ rel).dropLast then fs
            else fs.createDirAll (scratch ++ rel).dropLast)
         else
          (if scratch ++ rel = [] then fs
            else if fs.pathExists (scratch ++ rel).dropLast then fs
            else fs.createDirAll (scratch ++ rel).dropLast).writeFile (scratch ++ rel) e.data)
        hrest
      refine ⟨ih1, by simpa using ih2, ?_⟩
      intro j hj
      cases j with
      | zero => simp
      | succ j' =>
          have hj' : j' < rest.length := by simpa using hj
          have := ih3 j' hj'
          simpa [Nat.add_assoc, Nat.add_comm, Nat.add_left_comm] using this

/-! ### Helper lemmas about the merge loop -/

lemma string_append_new_ne (s : String) : s ++ ".new" ≠ s := by
  intro h
  have hl := congrArg String.length h
  rw [String.length_append] at hl
  have h4 : (".new" : String).length = 4 := rfl
  rw [h4] at hl
  omega

lemma selfReplaceDest_eq_of_getLast (e : String) (dest : Path) (last : String)
    (hd : dest.getLast? = some last) :
    selfReplaceDest e dest =
      if last = e then dest.dropLast ++ [last ++ ".new"] else dest := by
  unfold selfReplaceDest
  rw [hd]

lemma selfReplaceDest_eq_of_getLast_none (e : String) (dest : Path)
    (hd : dest.getLast? = none) : selfReplaceDest e dest = dest := by
  unfold selfReplaceDest
  rw [hd]

lemma selfReplaceDest_getLast_ne (e : String) (dest : Path) :
    (selfReplaceDest e dest).getLast? = some e → False := by
  cases hd : dest.getLast? with
  | none =>
      rw [selfReplaceDest_eq_of_getLast_none e dest hd, hd]
      exact fun h => Option.noConfusion h
  | some last =>
      rw [selfReplaceDest_eq_of_getLast e dest last hd]
      by_cases he : last = e
      · rw [if_pos he, List.getLast?_concat]
        intro h
        subst he
        exact string_append_new_ne last (Option.some.inj h)
      · rw [if_neg he, hd]
        intro h
        exact he (Option.some.inj h)

lemma mergeStep_getFile_ne (e : String) (t r : Path) (total cur : Nat) (fs : FS)
    (p w : Path) (h : selfReplaceDest e (t ++ p.drop r.length) ≠ w) :
    (mergeStep e t r total cur fs p).1.getFile w = fs.getFile w := by
  unfold mergeStep
  simp only
  set fs1 := if t ++ p.drop r.length = [] then fs
    else fs.createDirAll (t ++ p.drop r.length).dropLast with hfs1
  have hfs1w : fs1.getFile w = fs.getFile w := by
    rw [hfs1]; split
    · rfl
    · rw [FS.getFile_createDirAll]
  have hfs1p : fs1.getFile p = fs.getFile p := by
    rw [hfs1]; split
    · rfl
    · rw [FS.getFile_createDirAll]
  cases hsrc : fs1.getFile p with
  | none => exact hfs1w
  | some d =>
      rw [FS.getFile_writeFile_ne _ _ _ _ (fun hc => h hc.symm)]
      exact hfs1w

lemma mergeStep_isDir_mono (e : String) (t r : Path) (total cur : Nat) (fs : FS)
    (p q : Path) (h : fs.isDir q = true) :
    (mergeStep e t r total cur fs p).1.isDir q = true := by
  unfold mergeStep
  simp only
  set fs1 := if t ++ p.drop r.length = [] then fs
    else fs.createDirAll (t ++ p.drop r.length).dropLast with hfs1
  have hfs1q : fs1.isDir q = true := by
    rw [hfs1]; split
    · exact h
    · exact FS.isDir_createDirAll_mono _ _ _ h
  cases hsrc : fs1.getFile p with
  | none => exact hfs1q
  | some d => rw [FS.isDir_writeFile]; exact hfs1q

lemma mergeLoop_getFile_preserved (e : String) (t r : Path) (total : Nat) :
    ∀ (files : List Path) (cur : Nat) (fs : FS) (w : Path),
      (∀ q ∈ files, selfReplaceDest e (t ++ q.drop r.length) ≠ w) →
      (mergeLoop e t r total files cur fs).1.getFile w = fs.getFile w := by
  intro files
  induction files with
  | nil => intro cur fs w _; rfl
  | cons p rest ih =>
      intro cur fs w hw
      simp only [mergeLoop]
      rw [ih _ _ _ (fun q hq => hw q (List.mem_cons_of_mem p hq))]
      exact mergeStep_getFile_ne e t r total cur fs p w (hw p (List.mem_cons_self p rest))

lemma mergeLoop_getFile_exe (e : String) (t r : Path) (total : Nat)
    (files : List Path) (cur : Nat) (fs : FS) (w : Path)
    (hw : w.getLast? = some e) :
    (mergeLoop e t r total files cur fs).1.getFile w = fs.getFile w := by
  apply mergeLoop_getFile_preserved
  intro q _ hc
  exact selfReplaceDest_getLast_ne e (t ++ q.drop r.length) (hc ▸ hw)

lemma mergeLoop_isDir_mono (e : String) (t r : Path) (total : Nat) :
    ∀ (files : List Path) (cur : Nat) (fs : FS) (q : Path),
      fs.isDir q = true → (mergeLoop e t r total files cur fs).1.isDir q = true := by
  intro files
  induction files with
  | nil => intro cur fs q h; exact h
  | cons p rest ih =>
      intro cur fs q h
      simp only [mergeLoop]
      exact ih _ _ _ (mergeStep_isDir_mono e t r total cur fs p q h)

lemma mergeLoop_trace_length (e : String) (t r : Path) (total : Nat) :
    ∀ (files : List Path) (cur : Nat) (fs : FS),
      (mergeLoop e t r total files cur fs).2.length = files.length := by
  intro files
  induction files with
  | nil => intro cur fs; rfl
  | cons p rest ih =>
      intro cur fs
      simp only [mergeLoop, List.length_cons]
      rw [ih]

lemma mergeStep_msg (e : String) (t r : Path) (total cur : Nat) (fs : FS) (p : Path) :
    (mergeStep e t r total cur fs p).2 =
      UpdateMsg.Progress (cur + 1) total (pathToString (p.drop r.length)) := by
  unfold mergeStep
  simp only
  split <;> rfl

lemma mergeLoop_trace_get (e : String) (t r : Path) (total : Nat) :
    ∀ (files : List Path) (cur : Nat) (fs : FS) (j : Nat) (hj : j < files.length),
      (mergeLoop e t r total files cur fs).2.get? j =
        some (UpdateMsg.Progress (cur + j + 1) total
          (pathToString ((files.get ⟨j, hj⟩).drop r.length))) := by
  intro files
  induction files with
  | nil => intro cur fs j hj; exact absurd hj (by simp)
  | cons p rest ih =>
      intro cur fs j hj
      cases j with
      | zero => simp [mergeLoop, mergeStep_msg]
      | succ j' =>
          have hj' : j' < rest.length := by simpa using hj
          have := ih (cur + 1) (mergeStep e t r total cur fs p).1 j' hj'
          simp only [mergeLoop, List.get?_cons_succ]
          rw [this]
          congr 2
          omega

lemma mergeLoop_trace_progress (e : String) (t r : Path) (total : Nat) :
    ∀ (files : List Path) (cur : Nat) (fs : FS),
      ∀ m ∈ (mergeLoop e t r total files cur fs).2, m.isProgress = true := by
  intro files
  induction files with
  | nil => intro cur fs m hm; simp [mergeLoop] at hm
  | cons p rest ih =>
      intro cur fs m hm
      simp only [mergeLoop, List.mem_cons] at hm
      cases hm with
      | inl h => subst h; rw [mergeStep_msg]; rfl
      | inr h => exact ih _ _ m h

lemma getLast_ne_nil_of_lt {r q : Path} (h : r.length < q.length) :
    q.drop r.length ≠ [] := by
  intro hc
  rw [List.drop_eq_nil_iff] at hc
  omega

lemma selfReplaceDest_under (e : String) (t rel : Path) (hne : rel ≠ []) :
    t.isPrefixOf (selfReplaceDest e (t ++ rel)) = true := by
  cases hrel : rel.getLast? with
  | none => exact absurd (List.getLast?_eq_none_iff.mp hrel) hne
  | some last =>
      have hgl : (t ++ rel).getLast? = some last := by
        rw [List.getLast?_append_of_ne_nil t hne, hrel]
      rw [selfReplaceDest_eq_of_getLast e _ last hgl]
      by_cases he : last = e
      · rw [if_pos he, List.dropLast_append_of_ne_nil t hne, List.append_assoc]
        exact isPrefixOf_append _ _
      · rw [if_neg he]
        exact isPrefixOf_append _ _

lemma mergeLoop_writes_under (e : String) (t r : Path) (total : Nat) :
    ∀ (files : List Path) (cur : Nat) (fs : FS) (w : Path),
      (∀ q ∈ files, r.length < q.length) →
      (mergeLoop e t r total files cur fs).1.getFile w ≠ fs.getFile w →
      t.isPrefixOf w = true := by
  intro files
  induction files with
  | nil => intro cur fs w _ h; exact absurd rfl h
  | cons p rest ih =>
      intro cur fs w hlen h
      simp only [mergeLoop] at h
      by_cases hstep : selfReplaceDest e (t ++ p.drop r.length) = w
      · rw [← hstep]
        exact selfReplaceDest_under e t _
          (getLast_ne_nil_of_lt (hlen p (List.mem_cons_self p rest)))
      · by_cases hrec :
            (mergeLoop e t r total rest (cur + 1) (mergeStep e t r total cur fs p).1).1.getFile w =
              (mergeStep e t r total cur fs p).1.getFile w
        · rw [hrec, mergeStep_getFile_ne e t r total cur fs p w hstep] at h
          exact absurd rfl h
        · exact ih _ _ _ (fun q hq => hlen q (List.mem_cons_of_mem p hq)) hrec

lemma isTerminal_of_isProgress (m : UpdateMsg) (h : m.isProgress = true) :
    m.isTerminal = false := by
  cases m <;> simp_all [UpdateMsg.isProgress, UpdateMsg.isTerminal]

/-! ### The shape of whole runs -/

lemma run_success_shape (inp : Input) (tr : List UpdateMsg) (fs' : FS)
    (h : actualPerformUpdate inp = ⟨tr, none, fs'⟩) :
    ∃ targetDir entries res root files mr,
      inp.packagePath ≠ "" ∧
      inp.targetPath = some targetDir ∧
      inp.archive = OpenResult.ok entries ∧
      res = extractLoop inp.scratch entries.length entries 0
        (inp.fs0.createDirAll inp.scratch) ∧
      res.err = none ∧
      root = resolvePayload inp.scratch inp.zipInnerPath ∧
      res.fs.pathExists root = true ∧
      files = res.fs.filesUnder root ∧
      mr = mergeLoop inp.exeName targetDir root files.length files 0 res.fs ∧
      tr = UpdateMsg.Status statusExtracting :: UpdateMsg.TotalFiles entries.length ::
           res.trace ++ UpdateMsg.Status statusCopying ::
           UpdateMsg.TotalFiles files.length :: mr.2 ++ [UpdateMsg.Complete] ∧
      fs' = mr.1 := by
  by_cases hp : inp.packagePath = ""
  · rw [actualPerformUpdate, if_pos hp] at h
    exact Option.noConfusion (congrArg RunRes.err h)
  · cases hT : inp.targetPath with
    | none =>
        rw [actualPerformUpdate, if_neg hp, hT] at h
        exact Option.noConfusion (congrArg RunRes.err h)
    | some targetDir =>
        cases hA : inp.archive with
        | ioFail m =>
            rw [actualPerformUpdate, if_neg hp, hT, hA] at h
            exact Option.noConfusion (congrArg RunRes.err h)
        | zipFail m =>
            rw [actualPerformUpdate, if_neg hp, hT, hA] at h
            exact Option.noConfusion (congrArg RunRes.err h)
        | ok entries =>
            simp only [actualPerformUpdate, if_neg hp, hT, hA] at h
            cases hE : (extractLoop inp.scratch entries.length entries 0
                (inp.fs0.createDirAll inp.scratch)).err with
            | some e =>
                rw [hE] at h
                exact Option.noConfusion (congrArg RunRes.err h)
            | none =>
                rw [hE] at h
                by_cases hex : (extractLoop inp.scratch entries.length entries 0
                    (inp.fs0.createDirAll inp.scratch)).fs.pathExists
                    (resolvePayload inp.scratch inp.zipInnerPath) = true
                · rw [if_pos hex] at h
                  injection h with h1 h2 h3
                  exact ⟨targetDir, entries, _, _, _, _, hp, rfl, rfl, rfl, hE, rfl,
                    hex, rfl, rfl, by rw [← h1], h3.symm⟩
                · rw [if_neg hex] at h
                  exact Option.noConfusion (congrArg RunRes.err h)

lemma run_err_trace (inp : Input) (tr : List UpdateMsg) (e : UErr) (fs' : FS)
    (h : actualPerformUpdate inp = ⟨tr, some e, fs'⟩) :
    ∀ m ∈ tr, m.isTerminal = false := by
  by_cases hp : inp.packagePath = ""
  · rw [actualPerformUpdate, if_pos hp] at h
    injection h with h1 _ _
    rw [← h1]
    intro m hm
    exact absurd hm (List.not_mem_nil m)
  · cases hT : inp.targetPath with
    | none =>
        rw [actualPerformUpdate, if_neg hp, hT] at h
        injection h with h1 _ _
        rw [← h1]
        intro m hm
        exact absurd hm (List.not_mem_nil m)
    | some targetDir =>
        cases hA : inp.archive with
        | ioFail m' =>
            rw [actualPerformUpdate, if_neg hp, hT, hA] at h
            injection h with h1 _ _
            rw [← h1]
            intro m hm
            exact absurd hm (List.not_mem_nil m)
        | zipFail m' =>
            rw [actualPerformUpdate, if_neg hp, hT, hA] at h
            injection h with h1 _ _
            rw [← h1]
            intro m hm
            exact absurd hm (List.not_mem_nil m)
        | ok entries =>
            simp only [actualPerformUpdate, if_neg hp, hT, hA] at h
            cases hE : (extractLoop inp.scratch entries.length entries 0
                (inp.fs0.createDirAll inp.scratch)).err with
            | some e' =>
                rw [hE] at h
                injection h with h1 _ _
                rw [← h1]
                intro m hm
                simp only [List.mem_cons] at hm
                rcases hm with rfl | rfl | hm
                · rfl
                · rfl
                · exact isTerminal_of_isProgress m (extractLoop_trace_progress _ _ _ _ _ m hm)
            | none =>
                rw [hE] at h
                by_cases hex : (extractLoop inp.scratch entries.length entries 0
                    (inp.fs0.createDirAll inp.scratch)).fs.pathExists
                    (resolvePayload inp.scratch inp.zipInnerPath) = true
                · rw [if_pos hex] at h
                  exact Option.noConfusion (congrArg RunRes.err h)
                · rw [if_neg hex] at h
                  injection h with h1 _ _
                  rw [← h1]
                  intro m hm
                  simp only [List.mem_cons] at hm
                  rcases hm with rfl | rfl | hm
                  · rfl
                  · rfl
                  · exact isTerminal_of_isProgress m (extractLoop_trace_progress _ _ _ _ _ m hm)

/-! ### Further helper lemmas -/

lemma isTotalFiles_of_isProgress (m : UpdateMsg) (h : m.isProgress = true) :
    m.isTotalFiles = false := by
  cases m <;> simp_all [UpdateMsg.isProgress, UpdateMsg.isTotalFiles]

lemma isComplete_of_isProgress (m : UpdateMsg) (h : m.isProgress = true) :
    m.isComplete = false := by
  cases m <;> simp_all [UpdateMsg.isProgress, UpdateMsg.isComplete]

lemma selfReplaceDest_eq_self_of_ne (e : String) (dest : Path)
    (h : dest.getLast? ≠ some e) : selfReplaceDest e dest = dest := by
  cases hd : dest.getLast? with
  | none => exact selfReplaceDest_eq_of_getLast_none e dest hd
  | some last =>
      rw [selfReplaceDest_eq_of_getLast e dest last hd,
        if_neg (fun hle : last = e => h (hle ▸ hd))]

lemma mergeStep_getFile_write (e : String) (t r : Path) (total cur : Nat)
    (fs : FS) (p : Path) (d : Bytes) (hsrc : fs.getFile p = some d) :
    (mergeStep e t r total cur fs p).1.getFile
      (selfReplaceDest e (t ++ p.drop r.length)) = some d := by
  unfold mergeStep
  simp only
  have hfs1 : (if t ++ p.drop r.length = [] then fs
      else fs.createDirAll (t ++ p.drop r.length).dropLast).getFile p = some d := by
    split
    · exact hsrc
    · rw [FS.getFile_createDirAll]; exact hsrc
  rw [hfs1]
  exact FS.getFile_writeFile_self _ _ _

/-! ### Claim theorems -/

/-- Claim C10: during extraction, an entry whose stored name is rejected by
`enclosed_name` (absolute, NUL-containing, or escaping through `..`) is
skipped entirely — the loop continues at the next index with the
filesystem unchanged, so no bytes and no Progress event are produced for
it — and every file the extraction loop writes lies under the scratch
directory, so no extracted file escapes the scratch area. -/
theorem claim10_unsafe_entries_skipped :
    (∀ (scratch : Path) (total : Nat) (e : ZipEntry) (rest : List ZipEntry)
      (i : Nat) (fs : FS), e.readOk = true → enclosedName e.name = none →
      extractLoop scratch total (e :: rest) i fs =
        extractLoop scratch total rest (i + 1) fs) ∧
    (∀ (scratch : Path) (total : Nat) (entries : List ZipEntry) (i : Nat)
      (fs : FS) (p : Path),
      (extractLoop scratch total entries i fs).fs.getFile p ≠ fs.getFile p →
      scratch.isPrefixOf p = true) := by
  constructor
  · intro scratch total e rest i fs hr henc
    simp [extractLoop, hr, henc]
  · intro scratch total entries i fs p h
    exact extractLoop_getFile scratch total entries i fs p h

/-- Claim C10 witness: the `../x` entry is skipped at a concrete input,
and a concrete extraction write stays under the scratch directory. -/
theorem claim10_witness :
    extractLoop ["tmp"] 1 [badEntry] 0 fsEmpty = extractLoop ["tmp"] 1 [] 1 fsEmpty ∧
    List.isPrefixOf ["tmp"] (["tmp", "a"] : Path) = true :=
  ⟨claim10_unsafe_entries_skipped.1 ["tmp"] 1 badEntry [] 0 fsEmpty
     (by decide) (by decide),
   claim10_unsafe_entries_skipped.2 ["tmp"] 1 [⟨"a", [1], true⟩] 0 fsEmpty
     ["tmp", "a"] (by decide)⟩

/-- Claim C5 counterexample: a one-entry archive whose entry is readable
but rejected by `enclosed_name` extracts successfully while emitting zero
Progress events, not N = 1 events with current values 1..N. -/
theorem claim5_counterexample :
    badEntry.readOk = true ∧
    (extractLoop ["tmp"] 1 [badEntry] 0 fsEmpty).err = none ∧
    (extractLoop ["tmp"] 1 [badEntry] 0 fsEmpty).trace = [] := by decide

/-- Claim C5 (amended): for an archive all of whose entries are readable
and have valid enclosed names, a successful extraction emits exactly one
Progress event per entry, in archive order, with current values 1..N and
total constant at N — directory entries included (no bytes are written
for them, but the index still advances). Entries rejected by
`enclosed_name` are skipped and produce no Progress event. -/
theorem claim5_extraction_progress (scratch : Path) (entries : List ZipEntry)
    (fs : FS)
    (hsafe : ∀ e ∈ entries, e.readOk = true ∧ (enclosedName e.name).isSome = true) :
    (extractLoop scratch entries.length entries 0 fs).err = none ∧
    (extractLoop scratch entries.length entries 0 fs).trace.length = entries.length ∧
    ∀ j (hj : j < entries.length),
      (extractLoop scratch entries.length entries 0 fs).trace.get? j =
        some (UpdateMsg.Progress (j + 1) entries.length (entries.get ⟨j, hj⟩).name) := by
  obtain ⟨h1, h2, h3⟩ := extractLoop_all_safe scratch entries.length entries 0 fs hsafe
  refine ⟨h1, h2, ?_⟩
  intro j hj
  have := h3 j hj
  simpa using this

/-- Claim C5 witness: a two-entry archive (a file and a directory entry)
emits Progress 2 2 "d/" for its directory entry. -/
theorem claim5_witness :
    (extractLoop ["tmp"] 2 safeEntries 0 fsEmpty).trace.get? 1 =
      some (UpdateMsg.Progress 2 2 "d/") := by
  have h := (claim5_extraction_progress ["tmp"] safeEntries fsEmpty (by decide)).2.2 1
    (by decide)
  simpa using h

/-- Claim C1: when the merge stage meets a file whose destination file
name equals the running executable's name, its bytes are written to the
sibling path obtained by appending ".new" to the destination path, the
file at the original destination path is left untouched (no write of the
whole merge stage ever lands on a path whose file name is the
executable's), and the file still yields a merge-stage Progress event
with the running 1-based counter and the precomputed total. -/
theorem claim1_self_replace (e : String) (t r : Path) (total cur : Nat)
    (fs : FS) (p : Path) (d : Bytes)
    (hconf : (t ++ p.drop r.length).getLast? = some e)
    (hsrc : fs.getFile p = some d) :
    ((mergeStep e t r total cur fs p).1.getFile
        ((t ++ p.drop r.length).dropLast ++ [e ++ ".new"]) = some d) ∧
    ((mergeStep e t r total cur fs p).1.getFile (t ++ p.drop r.length) =
      fs.getFile (t ++ p.drop r.length)) ∧
    ((mergeStep e t r total cur fs p).2 =
      UpdateMsg.Progress (cur + 1) total (pathToString (p.drop r.length))) ∧
    (∀ (files : List Path) (cur' : Nat) (fs' : FS) (w : Path),
      w.getLast? = some e →
      (mergeLoop e t r total files cur' fs').1.getFile w = fs'.getFile w) ∧
    (∀ (files : List Path) (cur' : Nat) (fs' : FS) (j : Nat)
      (hj : j < files.length),
      (mergeLoop e t r total files cur' fs').2.get? j =
        some (UpdateMsg.Progress (cur' + j + 1) total
          (pathToString ((files.get ⟨j, hj⟩).drop r.length)))) := by
  have hfinal : selfReplaceDest e (t ++ p.drop r.length) =
      (t ++ p.drop r.length).dropLast ++ [e ++ ".new"] := by
    rw [selfReplaceDest_eq_of_getLast e _ e hconf, if_pos rfl]
  refine ⟨?_, ?_, mergeStep_msg e t r total cur fs p, ?_, ?_⟩
  · have h := mergeStep_getFile_write e t r total cur fs p d hsrc
    rw [hfinal] at h
    exact h
  · apply mergeStep_getFile_ne
    rw [hfinal]
    intro hcontra
    have hgl := congrArg List.getLast? hcontra
    rw [List.getLast?_concat, hconf] at hgl
    exact string_append_new_ne e (Option.some.inj hgl)
  · intro files cur' fs' w hw
    exact mergeLoop_getFile_exe e t r total files cur' fs' w hw
  · intro files cur' fs' j hj
    exact mergeLoop_trace_get e t r total files cur' fs' j hj

/-- Claim C1 witness: with running executable `app.exe`, the payload file
`s/app.exe` is staged at `t/app.exe.new`. -/
theorem claim1_witness :
    (mergeStep "app.exe" ["t"] ["s"] 2 0 mergeFS ["s", "app.exe"]).1.getFile
      ["t", "app.exe.new"] = some [9] := by
  have h := (claim1_self_replace "app.exe" ["t"] ["s"] 2 0 mergeFS
    ["s", "app.exe"] [9] (by decide) (by decide)).1
  simpa using h

lemma mergeLoop_roundtrip_aux (e : String) (t r : Path) (total : Nat) :
    ∀ (files : List Path) (cur : Nat) (fs : FS) (p : Path) (d : Bytes),
      p ∈ files → files.Nodup →
      (∀ q ∈ files, r.isPrefixOf q = true ∧ r.length < q.length) →
      (∀ q ∈ files, t.isPrefixOf q = false) →
      (t ++ p.drop r.length).getLast? ≠ some e →
      (∀ q ∈ files, (t ++ q.drop r.length).getLast? = some e →
        selfReplaceDest e (t ++ q.drop r.length) ≠ t ++ p.drop r.length) →
      fs.getFile p = some d →
      (mergeLoop e t r total files cur fs).1.getFile (t ++ p.drop r.length) = some d := by
  intro files
  induction files with
  | nil => intro cur fs p d hp; exact absurd hp (List.not_mem_nil p)
  | cons q rest ih =>
      intro cur fs p d hp hnodup hroot hdisj hnc hclash hsrc
      rcases List.mem_cons.mp hp with rfl | hp'
      · -- the walk reaches `p` now: its own copy lands on the destination,
        -- and no later step may overwrite it
        simp only [mergeLoop]
        have hdest : selfReplaceDest e (t ++ p.drop r.length) = t ++ p.drop r.length :=
          selfReplaceDest_eq_self_of_ne e _ hnc
        have hstep : (mergeStep e t r total cur fs p).1.getFile
            (t ++ p.drop r.length) = some d := by
          have h := mergeStep_getFile_write e t r total cur fs p d hsrc
          rw [hdest] at h
          exact h
        rw [mergeLoop_getFile_preserved e t r total rest (cur + 1) _ _ ?_]
        · exact hstep
        · intro q' hq' hcontra
          by_cases hc : (t ++ q'.drop r.length).getLast? = some e
          · exact hclash q' (List.mem_cons_of_mem p hq') hc hcontra
          · rw [selfReplaceDest_eq_self_of_ne e _ hc] at hcontra
            have hdrop : q'.drop r.length = p.drop r.length :=
              List.append_cancel_left hcontra
            have hq'eq : q' = p := by
              have h1 := isPrefixOf_drop_append r q'
                (hroot q' (List.mem_cons_of_mem p hq')).1
              have h2 := isPrefixOf_drop_append r p (hroot p hp).1
              rw [← h1, ← h2, hdrop]
            exact absurd (hq'eq ▸ hq') (List.nodup_cons.mp hnodup).1
      · -- an earlier file is copied first; it cannot touch the source `p`
        simp only [mergeLoop]
        have hqlen := hroot q (List.mem_cons_self q rest)
        have hpres : (mergeStep e t r total cur fs q).1.getFile p = some d := by
          rw [mergeStep_getFile_ne e t r total cur fs q p ?_]
          · exact hsrc
          · intro hcontra
            have hunder := selfReplaceDest_under e t (q.drop r.length)
              (getLast_ne_nil_of_lt hqlen.2)
            rw [hcontra] at hunder
            rw [hdisj p hp] at hunder
            exact Bool.noConfusion hunder
        exact ih (cur + 1) _ p d hp' (List.nodup_cons.mp hnodup).2
          (fun q' hq' => hroot q' (List.mem_cons_of_mem q hq'))
          (fun q' hq' => hdisj q' (List.mem_cons_of_mem q hq'))
          hnc
          (fun q' hq' => hclash q' (List.mem_cons_of_mem q hq'))
          hpres

/-- Claim C7 counterexample: when the payload holds both `app.exe.new` and
`app.exe` (the running executable's name) and the walk meets
`app.exe.new` first, the conflicting file's deferred-replace write lands
on the same destination `t/app.exe.new`, so after the run the bytes at
`t/app.exe.new` are those of `app.exe` ([2]), not those of the
non-conflicting source `s/app.exe.new` ([1]). -/
theorem claim7_counterexample :
    clashFS.getFile ["s", "app.exe.new"] = some [1] ∧
    (mergeLoop "app.exe" ["t"] ["s"] 2
        [["s", "app.exe.new"], ["s", "app.exe"]] 0 clashFS).1.getFile
      ["t", "app.exe.new"] = some [2] := by decide

/-- Claim C7 (amended): for every non-conflicting FileEntry of the walk —
provided the walked files lie strictly under the payload root, the
payload subtree is disjoint from the target directory (the scratch area
is a fresh temporary directory), and no conflicting entry's ".new"
pending destination coincides with this entry's destination — the byte
content at target/relativePath after the merge equals the source bytes,
overwriting any pre-existing file at that destination. -/
theorem claim7_roundtrip (e : String) (t r : Path) (total cur : Nat)
    (files : List Path) (fs : FS) (p : Path) (d : Bytes)
    (hp : p ∈ files) (hnodup : files.Nodup)
    (hroot : ∀ q ∈ files, r.isPrefixOf q = true ∧ r.length < q.length)
    (hdisj : ∀ q ∈ files, t.isPrefixOf q = false)
    (hnc : (t ++ p.drop r.length).getLast? ≠ some e)
    (hclash : ∀ q ∈ files, (t ++ q.drop r.length).getLast? = some e →
      selfReplaceDest e (t ++ q.drop r.length) ≠ t ++ p.drop r.length)
    (hsrc : fs.getFile p = some d) :
    (mergeLoop e t r total files cur fs).1.getFile (t ++ p.drop r.length) = some d :=
  mergeLoop_roundtrip_aux e t r total files cur fs p d hp hnodup hroot hdisj
    hnc hclash hsrc

/-- Claim C7 witness: the non-conflicting `s/lib.dll` arrives unchanged at
`t/lib.dll` even though `s/app.exe` is in the same walk. -/
theorem claim7_witness :
    (mergeLoop "app.exe" ["t"] ["s"] 2
        [["s", "app.exe"], ["s", "lib.dll"]] 0 mergeFS).1.getFile
      ["t", "lib.dll"] = some [5] := by
  have h := claim7_roundtrip "app.exe" ["t"] ["s"] 2 0
    [["s", "app.exe"], ["s", "lib.dll"]] mergeFS ["s", "lib.dll"] [5]
    (by decide) (by decide) (by decide) (by decide) (by decide) (by decide)
    (by decide)
  simpa using h

lemma run_err_not_invalid (inp : Input) (hp : inp.packagePath ≠ "")
    (targetDir : Path) (hT : inp.targetPath = some targetDir) (e : UErr)
    (he : (actualPerformUpdate inp).err = some e) :
    e.kind ≠ ErrKind.InvalidInput := by
  cases hA : inp.archive with
  | ioFail m =>
      rw [actualPerformUpdate, if_neg hp, hT, hA] at he
      obtain rfl := Option.some.inj he
      exact fun hk => ErrKind.noConfusion hk
  | zipFail m =>
      rw [actualPerformUpdate, if_neg hp, hT, hA] at he
      obtain rfl := Option.some.inj he
      exact fun hk => ErrKind.noConfusion hk
  | ok entries =>
      simp only [actualPerformUpdate, if_neg hp, hT, hA] at he
      cases hE : (extractLoop inp.scratch entries.length entries 0
          (inp.fs0.createDirAll inp.scratch)).err with
      | some e' =>
          rw [hE] at he
          obtain rfl := Option.some.inj he
          rcases extractLoop_err_eq inp.scratch entries.length entries 0
            (inp.fs0.createDirAll inp.scratch) with h | h
          · rw [hE] at h; exact Option.noConfusion h
          · rw [hE] at h
            obtain rfl := Option.some.inj h
            exact fun hk => ErrKind.noConfusion hk
      | none =>
          rw [hE] at he
          by_cases hex : (extractLoop inp.scratch entries.length entries 0
              (inp.fs0.createDirAll inp.scratch)).fs.pathExists
              (resolvePayload inp.scratch inp.zipInnerPath) = true
          · rw [if_pos hex] at he
            exact Option.noConfusion he
          · rw [if_neg hex] at he
            obtain rfl := Option.some.inj he
            exact fun hk => ErrKind.noConfusion hk

/-- Claim C8: the update worker fails with an InvalidInput error exactly
when the update-package path is empty or the target directory is not
supplied, and in that case it does so before emitting any event on the
progress channel and before touching the filesystem (no scratch-area
creation, no extraction, no copying). -/
theorem claim8_invalid_input (inp : Input) :
    ((∃ e, (actualPerformUpdate inp).err = some e ∧ e.kind = ErrKind.InvalidInput) ↔
      (inp.packagePath = "" ∨ inp.targetPath = none)) ∧
    ((inp.packagePath = "" ∨ inp.targetPath = none) →
      (actualPerformUpdate inp).trace = [] ∧ (actualPerformUpdate inp).fs = inp.fs0) := by
  constructor
  · constructor
    · rintro ⟨e, he, hk⟩
      by_contra hc
      push_neg at hc
      obtain ⟨hinterm, hT⟩ := hc
      cases hTeq : inp.targetPath with
      | none => exact hT hTeq
      | some targetDir => exact run_err_not_invalid inp hinterm targetDir hTeq e he hk
    · rintro (hpkg | hT)
      · rw [actualPerformUpdate, if_pos hpkg]
        exact ⟨errNoPackage, rfl, rfl⟩
      · by_cases hpkg : inp.packagePath = ""
        · rw [actualPerformUpdate, if_pos hpkg]
          exact ⟨errNoPackage, rfl, rfl⟩
        · rw [actualPerformUpdate, if_neg hpkg, hT]
          exact ⟨errNoTarget, rfl, rfl⟩
  · rintro (hpkg | hT)
    · rw [actualPerformUpdate, if_pos hpkg]
      exact ⟨rfl, rfl⟩
    · by_cases hpkg : inp.packagePath = ""
      · rw [actualPerformUpdate, if_pos hpkg]
        exact ⟨rfl, rfl⟩
      · rw [actualPerformUpdate, if_neg hpkg, hT]
        exact ⟨rfl, rfl⟩

/-- Claim C8 witness: a run with no target directory fails with
InvalidInput, an empty trace, and an untouched filesystem. -/
theorem claim8_witness :
    (∃ e, (actualPerformUpdate inpNoTarget).err = some e ∧
      e.kind = ErrKind.InvalidInput) ∧
    (actualPerformUpdate inpNoTarget).trace = [] ∧
    (actualPerformUpdate inpNoTarget).fs = inpNoTarget.fs0 :=
  ⟨(claim8_invalid_input inpNoTarget).1.mpr (Or.inr rfl),
   (claim8_invalid_input inpNoTarget).2 (Or.inr rfl)⟩

lemma countP_terminal_concat (pre : List UpdateMsg) (x : UpdateMsg)
    (h : ∀ m ∈ pre, m.isTerminal = false) :
    (pre ++ [x]).countP UpdateMsg.isTerminal ≤ 1 ∧
    ∀ m ∈ (pre ++ [x]).dropLast, m.isTerminal = false := by
  constructor
  · rw [List.countP_append]
    have h0 : pre.countP UpdateMsg.isTerminal = 0 :=
      List.countP_eq_zero.mpr (fun m hm => by simp [h m hm])
    rw [h0]
    cases hx : x.isTerminal <;> simp [List.countP_cons, hx]
  · rw [List.dropLast_concat]
    exact h

/-- Claim C4: per run, at most one terminal event (Complete or Error) is
emitted on the progress channel, and no event of any kind is emitted
after it: every message before the last one is non-terminal. -/
theorem claim4_terminal (inp : Input) :
    (performUpdate inp).1.countP UpdateMsg.isTerminal ≤ 1 ∧
    ∀ m ∈ (performUpdate inp).1.dropLast, m.isTerminal = false := by
  cases hE : (actualPerformUpdate inp).err with
  | none =>
      have hrun : actualPerformUpdate inp =
          ⟨(actualPerformUpdate inp).trace, none, (actualPerformUpdate inp).fs⟩ := by
        rw [← hE]
      obtain ⟨t, entries, res, root, files, mr, hp, hT, hA, hres, hresErr, hroot,
        hex, hfiles, hmr, htr, hfs⟩ := run_success_shape inp _ _ hrun
      subst hres hroot hfiles hmr
      have htrace1 : (performUpdate inp).1 = (actualPerformUpdate inp).trace := by
        simp only [performUpdate, hE]
      rw [htr] at htrace1
      have htrace2 : (performUpdate inp).1 =
          (UpdateMsg.Status statusExtracting ::
            UpdateMsg.TotalFiles entries.length ::
            (extractLoop inp.scratch entries.length entries 0
              (inp.fs0.createDirAll inp.scratch)).trace ++
            UpdateMsg.Status statusCopying ::
            UpdateMsg.TotalFiles ((extractLoop inp.scratch entries.length entries 0
              (inp.fs0.createDirAll inp.scratch)).fs.filesUnder
                (resolvePayload inp.scratch inp.zipInnerPath)).length ::
            (mergeLoop inp.exeName t (resolvePayload inp.scratch inp.zipInnerPath)
              ((extractLoop inp.scratch entries.length entries 0
                (inp.fs0.createDirAll inp.scratch)).fs.filesUnder
                  (resolvePayload inp.scratch inp.zipInnerPath)).length
              ((extractLoop inp.scratch entries.length entries 0
                (inp.fs0.createDirAll inp.scratch)).fs.filesUnder
                  (resolvePayload inp.scratch inp.zipInnerPath)) 0
              (extractLoop inp.scratch entries.length entries 0
                (inp.fs0.createDirAll inp.scratch)).fs).2) ++
          [UpdateMsg.Complete] := by
        rw [htrace1]
      have hmem : ∀ m ∈ UpdateMsg.Status statusExtracting ::
            UpdateMsg.TotalFiles entries.length ::
            (extractLoop inp.scratch entries.length entries 0
              (inp.fs0.createDirAll inp.scratch)).trace ++
            UpdateMsg.Status statusCopying ::
            UpdateMsg.TotalFiles ((extractLoop inp.scratch entries.length entries 0
              (inp.fs0.createDirAll inp.scratch)).fs.filesUnder
                (resolvePayload inp.scratch inp.zipInnerPath)).length ::
            (mergeLoop inp.exeName t (resolvePayload inp.scratch inp.zipInnerPath)
              ((extractLoop inp.scratch entries.length entries 0
                (inp.fs0.createDirAll inp.scratch)).fs.filesUnder
                  (resolvePayload inp.scratch inp.zipInnerPath)).length
              ((extractLoop inp.scratch entries.length entries 0
                (inp.fs0.createDirAll inp.scratch)).fs.filesUnder
                  (resolvePayload inp.scratch inp.zipInnerPath)) 0
              (extractLoop inp.scratch entries.length entries 0
                (inp.fs0.createDirAll inp.scratch)).fs).2,
          m.isTerminal = false := by
        intro m hm
        simp only [List.mem_cons, List.mem_append] at hm
        rcases hm with (rfl | rfl | hm) | (rfl | rfl | hm)
        · rfl
        · rfl
        · exact isTerminal_of_isProgress m
            (extractLoop_trace_progress _ _ _ _ _ m hm)
        · rfl
        · rfl
        · exact isTerminal_of_isProgress m
            (mergeLoop_trace_progress _ _ _ _ _ _ _ m hm)
      rw [htrace2]
      exact countP_terminal_concat _ _ hmem
  | some e =>
      have hrun : actualPerformUpdate inp =
          ⟨(actualPerformUpdate inp).trace, some e, (actualPerformUpdate inp).fs⟩ := by
        rw [← hE]
      have hterm := run_err_trace inp _ e _ hrun
      have htrace1 : (performUpdate inp).1 =
          (actualPerformUpdate inp).trace ++ [UpdateMsg.Error e.msg] := by
        simp only [performUpdate, hE]
      rw [htrace1]
      exact countP_terminal_concat _ _ hterm

/-- Claim C4 witness: in a concrete successful run, the first Status
message (which precedes the last message) is non-terminal. -/
theorem claim4_witness :
    UpdateMsg.isTerminal (UpdateMsg.Status statusExtracting) = false :=
  (claim4_terminal inpEmptyArchive).2 (UpdateMsg.Status statusExtracting) (by decide)

/-- Claim C2 counterexample: a run over the empty archive reaches the
merge stage (it succeeds) yet emits two TotalFiles events, not exactly
one — one before extraction with the archive entry count, one before the
merge copies. -/
theorem claim2_counterexample :
    (actualPerformUpdate inpEmptyArchive).err = none ∧
    (actualPerformUpdate inpEmptyArchive).trace.countP UpdateMsg.isTotalFiles = 2 := by
  decide

/-- Claim C2 (amended): every run that reaches the merge stage emits
exactly two TotalFiles events: one before the extraction Progress events
carrying the archive entry count, and one at the start of the merge
stage — strictly before the first merge-stage Progress event — whose
value equals the number of regular files under the resolved payload
root. -/
theorem claim2_totalfiles (inp : Input) (tr : List UpdateMsg) (fs' : FS)
    (h : actualPerformUpdate inp = ⟨tr, none, fs'⟩) :
    tr.countP UpdateMsg.isTotalFiles = 2 ∧
    ∃ entries tr2,
      inp.archive = OpenResult.ok entries ∧
      tr = UpdateMsg.Status statusExtracting :: UpdateMsg.TotalFiles entries.length ::
           (extractLoop inp.scratch entries.length entries 0
             (inp.fs0.createDirAll inp.scratch)).trace ++
           UpdateMsg.Status statusCopying ::
           UpdateMsg.TotalFiles ((extractLoop inp.scratch entries.length entries 0
             (inp.fs0.createDirAll inp.scratch)).fs.filesUnder
               (resolvePayload inp.scratch inp.zipInnerPath)).length ::
           tr2 ++ [UpdateMsg.Complete] ∧
      (∀ m ∈ (extractLoop inp.scratch entries.length entries 0
          (inp.fs0.createDirAll inp.scratch)).trace, m.isTotalFiles = false) ∧
      (∀ m ∈ tr2, m.isTotalFiles = false) := by
  obtain ⟨t, entries, res, root, files, mr, hp, hT, hA, hres, hresErr, hroot,
    hex, hfiles, hmr, htr, hfs⟩ := run_success_shape inp tr fs' h
  subst hres hroot hfiles hmr
  have hz1 : ∀ m ∈ (extractLoop inp.scratch entries.length entries 0
      (inp.fs0.createDirAll inp.scratch)).trace, m.isTotalFiles = false :=
    fun m hm => isTotalFiles_of_isProgress m
      (extractLoop_trace_progress _ _ _ _ _ m hm)
  have hz2 : ∀ m ∈ (mergeLoop inp.exeName t
      (resolvePayload inp.scratch inp.zipInnerPath)
      ((extractLoop inp.scratch entries.length entries 0
        (inp.fs0.createDirAll inp.scratch)).fs.filesUnder
          (resolvePayload inp.scratch inp.zipInnerPath)).length
      ((extractLoop inp.scratch entries.length entries 0
        (inp.fs0.createDirAll inp.scratch)).fs.filesUnder
          (resolvePayload inp.scratch inp.zipInnerPath)) 0
      (extractLoop inp.scratch entries.length entries 0
        (inp.fs0.createDirAll inp.scratch)).fs).2, m.isTotalFiles = false :=
    fun m hm => isTotalFiles_of_isProgress m
      (mergeLoop_trace_progress _ _ _ _ _ _ _ m hm)
  refine ⟨?_, entries, _, hA, htr, hz1, hz2⟩
  rw [htr]
  have hc1 := List.countP_eq_zero.mpr (fun m hm => by simp [hz1 m hm] :
    ∀ m ∈ (extractLoop inp.scratch entries.length entries 0
      (inp.fs0.createDirAll inp.scratch)).trace, ¬(UpdateMsg.isTotalFiles m = true))
  have hc2 := List.countP_eq_zero.mpr (fun m hm => by simp [hz2 m hm] :
    ∀ m ∈ (mergeLoop inp.exeName t
      (resolvePayload inp.scratch inp.zipInnerPath)
      ((extractLoop inp.scratch entries.length entries 0
        (inp.fs0.createDirAll inp.scratch)).fs.filesUnder
          (resolvePayload inp.scratch inp.zipInnerPath)).length
      ((extractLoop inp.scratch entries.length entries 0
        (inp.fs0.createDirAll inp.scratch)).fs.filesUnder
          (resolvePayload inp.scratch inp.zipInnerPath)) 0
      (extractLoop inp.scratch entries.length entries 0
        (inp.fs0.createDirAll inp.scratch)).fs).2,
      ¬(UpdateMsg.isTotalFiles m = true))
  simp [List.countP_cons, List.countP_append, hc1, hc2, UpdateMsg.isTotalFiles]

/-- Claim C2 witness: the amended statement instantiated on the
two-entry `Product` archive run. -/
theorem claim2_witness :
    (actualPerformUpdate inpFolder).trace.countP UpdateMsg.isTotalFiles = 2 :=
  (claim2_totalfiles inpFolder (actualPerformUpdate inpFolder).trace
    (actualPerformUpdate inpFolder).fs (by decide)).1

/-- Claim C6 counterexample: a run over the empty archive emits Complete
exactly once but without any preceding Progress event at all, so no
Progress with current equal to the precomputed total precedes it. -/
theorem claim6_counterexample :
    (actualPerformUpdate inpEmptyArchive).err = none ∧
    (actualPerformUpdate inpEmptyArchive).trace.countP UpdateMsg.isComplete = 1 ∧
    (actualPerformUpdate inpEmptyArchive).trace.countP UpdateMsg.isProgress = 0 := by
  decide

/-- Claim C6 (amended): in every successful run Complete is emitted
exactly once, as the final event; when the precomputed merge total (the
count of regular files walked under the resolved payload root) is
positive, the event directly before Complete is a merge-stage Progress
whose current and total both equal that precomputed total; when the
precomputed total is zero, the event directly before Complete is the
merge-stage TotalFiles 0 and no Progress event precedes Complete. -/
theorem claim6_complete (inp : Input) (tr : List UpdateMsg) (fs' : FS)
    (h : actualPerformUpdate inp = ⟨tr, none, fs'⟩) :
    tr.countP UpdateMsg.isComplete = 1 ∧
    tr.getLast? = some UpdateMsg.Complete ∧
    ∃ pre entries,
      inp.archive = OpenResult.ok entries ∧
      tr = pre ++ [UpdateMsg.Complete] ∧
      (((extractLoop inp.scratch entries.length entries 0
          (inp.fs0.createDirAll inp.scratch)).fs.filesUnder
            (resolvePayload inp.scratch inp.zipInnerPath)).length = 0 →
        pre.getLast? = some (UpdateMsg.TotalFiles 0)) ∧
      (0 < ((extractLoop inp.scratch entries.length entries 0
          (inp.fs0.createDirAll inp.scratch)).fs.filesUnder
            (resolvePayload inp.scratch inp.zipInnerPath)).length →
        ∃ nm, pre.getLast? =
          some (UpdateMsg.Progress
            ((extractLoop inp.scratch entries.length entries 0
              (inp.fs0.createDirAll inp.scratch)).fs.filesUnder
                (resolvePayload inp.scratch inp.zipInnerPath)).length
            ((extractLoop inp.scratch entries.length entries 0
              (inp.fs0.createDirAll inp.scratch)).fs.filesUnder
                (resolvePayload inp.scratch inp.zipInnerPath)).length nm)) := by
  obtain ⟨t, entries, res, root, files, mr, hp, hT, hA, hres, hresErr, hroot,
    hex, hfiles, hmr, htr, hfs⟩ := run_success_shape inp tr fs' h
  have hcount : tr.countP UpdateMsg.isComplete = 1 := by
    subst hres hroot hfiles hmr
    have hc1 := List.countP_eq_zero.mpr
      (fun m hm => by
        simp [isComplete_of_isProgress m (extractLoop_trace_progress _ _ _ _ _ m hm)] :
      ∀ m ∈ (extractLoop inp.scratch entries.length entries 0
        (inp.fs0.createDirAll inp.scratch)).trace, ¬(UpdateMsg.isComplete m = true))
    have hc2 := List.countP_eq_zero.mpr
      (fun m hm => by
        simp [isComplete_of_isProgress m (mergeLoop_trace_progress _ _ _ _ _ _ _ m hm)] :
      ∀ m ∈ (mergeLoop inp.exeName t
        (resolvePayload inp.scratch inp.zipInnerPath)
        ((extractLoop inp.scratch entries.length entries 0
          (inp.fs0.createDirAll inp.scratch)).fs.filesUnder
            (resolvePayload inp.scratch inp.zipInnerPath)).length
        ((extractLoop inp.scratch entries.length entries 0
          (inp.fs0.createDirAll inp.scratch)).fs.filesUnder
            (resolvePayload inp.scratch inp.zipInnerPath)) 0
        (extractLoop inp.scratch entries.length entries 0
          (inp.fs0.createDirAll inp.scratch)).fs).2,
        ¬(UpdateMsg.isComplete m = true))
    rw [htr]
    simp [List.countP_cons, List.countP_append, hc1, hc2, UpdateMsg.isComplete]
  have hpre : tr = (UpdateMsg.Status statusExtracting ::
      UpdateMsg.TotalFiles entries.length :: res.trace ++
      UpdateMsg.Status statusCopying ::
      UpdateMsg.TotalFiles files.length :: mr.2) ++ [UpdateMsg.Complete] := by
    rw [htr]
  refine ⟨hcount, ?_, UpdateMsg.Status statusExtracting ::
    UpdateMsg.TotalFiles entries.length :: res.trace ++
    UpdateMsg.Status statusCopying ::
    UpdateMsg.TotalFiles files.length :: mr.2, entries, hA, hpre, ?_, ?_⟩
  · rw [hpre, List.getLast?_concat]
  · rw [← hres, ← hroot, ← hfiles]
    intro hM0
    have hfe : files = [] := List.length_eq_zero.mp hM0
    have hmr2 : mr.2 = [] := by rw [hmr, hfe]; rfl
    have hsplit : UpdateMsg.Status statusExtracting ::
        UpdateMsg.TotalFiles entries.length :: res.trace ++
        UpdateMsg.Status statusCopying ::
        UpdateMsg.TotalFiles files.length :: mr.2 =
        (UpdateMsg.Status statusExtracting ::
          UpdateMsg.TotalFiles entries.length :: res.trace ++
          [UpdateMsg.Status statusCopying]) ++
        [UpdateMsg.TotalFiles files.length] := by
      rw [hmr2]
      simp
    rw [hsplit, List.getLast?_concat, hM0]
  · rw [← hres, ← hroot, ← hfiles]
    intro hpos
    have hlen : mr.2.length = files.length := by
      rw [hmr]
      exact mergeLoop_trace_length _ _ _ _ _ _ _
    have hne : mr.2 ≠ [] := by
      intro hc
      rw [hc] at hlen
      simp at hlen
      omega
    have hj : files.length - 1 < files.length := by omega
    have hget := mergeLoop_trace_get inp.exeName t root files.length files 0
      res.fs (files.length - 1) hj
    rw [← hmr] at hget
    have harith : 0 + (files.length - 1) + 1 = files.length := by omega
    rw [harith] at hget
    refine ⟨pathToString ((files.get ⟨files.length - 1, hj⟩).drop root.length), ?_⟩
    have hsplit : UpdateMsg.Status statusExtracting ::
        UpdateMsg.TotalFiles entries.length :: res.trace ++
        UpdateMsg.Status statusCopying ::
        UpdateMsg.TotalFiles files.length :: mr.2 =
        (UpdateMsg.Status statusExtracting ::
          UpdateMsg.TotalFiles entries.length :: res.trace ++
          [UpdateMsg.Status statusCopying,
           UpdateMsg.TotalFiles files.length]) ++ mr.2 := by
      simp
    rw [hsplit, List.getLast?_append_of_ne_nil _ hne, List.getLast?_eq_get?,
      hlen, hget]

/-- Claim C3 counterexample: with an empty inner-path hint and a
conventionally named top-level folder `Product` present under the
scratch root after extraction, the payload root is still the scratch
root itself — the folder is not selected: the merge copies to
`t/Product/f` (relative name "Product/f"), not to `t/f`, so no
conventional-folder tier exists. -/
theorem claim3_counterexample :
    (actualPerformUpdate inpFolder).err = none ∧
    (actualPerformUpdate inpFolder).fs.isDir ["tmp", "Product"] = true ∧
    (actualPerformUpdate inpFolder).trace =
      [UpdateMsg.Status statusExtracting, UpdateMsg.TotalFiles 2,
       UpdateMsg.Progress 1 2 "Product/", UpdateMsg.Progress 2 2 "Product/f",
       UpdateMsg.Status statusCopying, UpdateMsg.TotalFiles 1,
       UpdateMsg.Progress 1 1 "Product/f", UpdateMsg.Complete] ∧
    (actualPerformUpdate inpFolder).fs.getFile ["t", "f"] = none ∧
    (actualPerformUpdate inpFolder).fs.getFile ["t", "Product", "f"] = some [7] := by
  decide

/-- Claim C3 (amended): the payload resolver is two-tier: an empty hint
always selects the scratch root itself (no conventionally-named folder is
ever consulted), and a non-empty hint selects scratch/hint; after
extraction, if the resolved payload root does not exist the run fails
with NotFound, and if it exists the run succeeds. -/
theorem claim3_resolver :
    (∀ s : Path, resolvePayload s "" = s) ∧
    (∀ (s : Path) (hint : String), hint ≠ "" →
      resolvePayload s hint = s ++ pathComponents hint) ∧
    (∀ (inp : Input) (targetDir : Path) (entries : List ZipEntry),
      inp.packagePath ≠ "" → inp.targetPath = some targetDir →
      inp.archive = OpenResult.ok entries →
      (extractLoop inp.scratch entries.length entries 0
        (inp.fs0.createDirAll inp.scratch)).err = none →
      ((extractLoop inp.scratch entries.length entries 0
          (inp.fs0.createDirAll inp.scratch)).fs.pathExists
          (resolvePayload inp.scratch inp.zipInnerPath) = false →
        (actualPerformUpdate inp).err = some ⟨ErrKind.NotFound,
          String.append "更新包中未找到指定目录: " inp.zipInnerPath⟩) ∧
      ((extractLoop inp.scratch entries.length entries 0
          (inp.fs0.createDirAll inp.scratch)).fs.pathExists
          (resolvePayload inp.scratch inp.zipInnerPath) = true →
        (actualPerformUpdate inp).err = none)) := by
  refine ⟨fun s => by simp [resolvePayload],
    fun s hint hne => by simp [resolvePayload, hne], ?_⟩
  intro inp targetDir entries hp hT hA hE
  constructor
  · intro hex
    simp [actualPerformUpdate, hp, hT, hA, hE, hex]
  · intro hex
    simp [actualPerformUpdate, hp, hT, hA, hE, hex]

/-- Claim C3 witness: the amended resolver policy at concrete inputs —
empty hint keeps the scratch root, hint "sub" joins it, and a missing
"sub" directory fails the concrete run with NotFound. -/
theorem claim3_witness :
    resolvePayload ["tmp"] "" = ["tmp"] ∧
    resolvePayload ["tmp"] "sub" = ["tmp"] ++ pathComponents "sub" ∧
    (actualPerformUpdate inpMissingInner).err = some ⟨ErrKind.NotFound,
      String.append "更新包中未找到指定目录: " inpMissingInner.zipInnerPath⟩ :=
  ⟨claim3_resolver.1 ["tmp"],
   claim3_resolver.2.1 ["tmp"] "sub" (by decide),
   (claim3_resolver.2.2 inpMissingInner ["t"] [] (by decide) rfl rfl
     (by decide)).1 (by decide)⟩

lemma actualPerformUpdate_isDir_mono (inp : Input) (d : Path)
    (h : inp.fs0.isDir d = true) : (actualPerformUpdate inp).fs.isDir d = true := by
  by_cases hp : inp.packagePath = ""
  · rw [actualPerformUpdate, if_pos hp]; exact h
  · cases hT : inp.targetPath with
    | none => rw [actualPerformUpdate, if_neg hp, hT]; exact h
    | some t =>
        have h1 : (inp.fs0.createDirAll inp.scratch).isDir d = true :=
          FS.isDir_createDirAll_mono _ _ _ h
        cases hA : inp.archive with
        | ioFail m => rw [actualPerformUpdate, if_neg hp, hT, hA]; exact h1
        | zipFail m => rw [actualPerformUpdate, if_neg hp, hT, hA]; exact h1
        | ok entries =>
            have h2 := extractLoop_isDir_mono inp.scratch entries.length entries 0
              (inp.fs0.createDirAll inp.scratch) d h1
            simp only [actualPerformUpdate, if_neg hp, hT, hA]
            cases hE : (extractLoop inp.scratch entries.length entries 0
                (inp.fs0.createDirAll inp.scratch)).err with
            | some e => exact h2
            | none =>
                by_cases hex : (extractLoop inp.scratch entries.length entries 0
                    (inp.fs0.createDirAll inp.scratch)).fs.pathExists
                    (resolvePayload inp.scratch inp.zipInnerPath) = true
                · rw [if_pos hex]
                  exact mergeLoop_isDir_mono _ _ _ _ _ _ _ d h2
                · rw [if_neg hex]; exact h2

/-- Claim C9 counterexample: with a payload holding one top-level file and
a target directory that does not exist beforehand, the engine itself
creates the target installation directory (via create_dir_all on the
destination's parent), contradicting "never creates ... the target
installation directory itself". -/
theorem claim9_counterexample :
    inpTopFile.fs0.isDir ["t"] = false ∧
    (actualPerformUpdate inpTopFile).err = none ∧
    (actualPerformUpdate inpTopFile).fs.isDir ["t"] = true := by decide

/-- Claim C9 (amended): the engine never deletes any directory (in
particular the target installation directory survives every run); merge
writes land only beneath the target directory and extraction writes only
beneath the scratch directory; but the engine may create the target
directory itself (and missing ancestors) when a destination's parent is
absent. -/
theorem claim9_frame :
    (∀ (inp : Input) (d : Path), inp.fs0.isDir d = true →
      (actualPerformUpdate inp).fs.isDir d = true) ∧
    (∀ (e : String) (t r : Path) (total : Nat) (files : List Path) (cur : Nat)
      (fs : FS) (w : Path),
      (∀ q ∈ files, r.length < q.length) →
      (mergeLoop e t r total files cur fs).1.getFile w ≠ fs.getFile w →
      t.isPrefixOf w = true) ∧
    (∀ (scratch : Path) (total : Nat) (entries : List ZipEntry) (i : Nat)
      (fs : FS) (p : Path),
      (extractLoop scratch total entries i fs).fs.getFile p ≠ fs.getFile p →
      scratch.isPrefixOf p = true) := by
  refine ⟨actualPerformUpdate_isDir_mono, ?_, extractLoop_getFile⟩
  intro e t r total files cur fs w hlen hch
  exact mergeLoop_writes_under e t r total files cur fs w hlen hch

/-- Claim C9 witness: the amended frame conditions at concrete inputs — a
pre-existing directory survives a full run, a concrete merge write lands
under the target, and a concrete extraction write lands under the
scratch. -/
theorem claim9_witness :
    (actualPerformUpdate inpKeepDir).fs.isDir ["keep"] = true ∧
    List.isPrefixOf ["t"] (["t", "lib.dll"] : Path) = true ∧
    List.isPrefixOf ["tmp"] (["tmp", "a"] : Path) = true :=
  ⟨claim9_frame.1 inpKeepDir ["keep"] (by decide),
   claim9_frame.2.1 "app.exe" ["t"] ["s"] 1 [["s", "lib.dll"]] 0 mergeFS
     ["t", "lib.dll"] (by decide) (by decide),
   claim9_frame.2.2 ["tmp"] 1 [⟨"a", [1], true⟩] 0 fsEmpty ["tmp", "a"]
     (by decide)⟩

/-- Claim C6 witness: the amended statement instantiated on the concrete
`Product` archive run: Complete is the final event there. -/
theorem claim6_witness :
    (actualPerformUpdate inpFolder).trace.getLast? = some UpdateMsg.Complete :=
  (claim6_complete inpFolder (actualPerformUpdate inpFolder).trace
    (actualPerformUpdate inpFolder).fs (by decide)).2.1

end Updater
